import Mathlib

/-!
Shallow embedding of the notebook `docs/docs/how_to/sql_large_db.ipynb`.

The notebook wires library calls into chains; its only locally defined
logic is the function `get_tables` (mapping the categories "Music" and
"Business" to table names) and the post-processing inside
`query_as_list` (flatten the parsed rows, drop falsy elements, erase
standalone digit runs with `re.sub` on the pattern backslash-b, digits,
backslash-b, and strip whitespace).  Language-model calls, the SQL
database and the vector store are modelled as oracle functions; chains
are modelled as function composition, matching the sequential semantics
of the `|` operator used in the notebook.
-/

namespace SqlLargeDb

/-- The pydantic model `Table` from the notebook: a single string field
`name` naming a table in the SQL database. -/
structure Table where
  name : String
deriving DecidableEq

/-- The static list printed by `db.get_usable_table_names()` for the
Chinook database, as recorded in the notebook's output cell. -/
def get_usable_table_names : List String :=
  ["Album", "Artist", "Customer", "Employee", "Genre", "Invoice",
   "InvoiceLine", "MediaType", "Playlist", "PlaylistTrack", "Track"]

/-- The seven table names `get_tables` appends for the category
`Music`, in the order of the source's list literal. -/
def musicTables : List String :=
  ["Album", "Artist", "Genre", "MediaType", "Playlist", "PlaylistTrack", "Track"]

/-- The four table names `get_tables` appends for the category
`Business`, in the order of the source's list literal. -/
def businessTables : List String :=
  ["Customer", "Employee", "Invoice", "InvoiceLine"]

/-- The notebook's `get_tables(categories)`: a loop over the input list
that extends the accumulator with the music tables on a category named
`Music`, with the business tables on a category named `Business`, and
with nothing otherwise. -/
def get_tables : List Table → List String
  | [] => []
  | category :: rest =>
      (if category.name = "Music" then musicTables
       else if category.name = "Business" then businessTables
       else []) ++ get_tables rest

/-- The digit class of the regular expression (Python `re` class `\d`,
ASCII range, matching the Chinook data). -/
def isDigitChar (c : Char) : Bool :=
  '0' ≤ c && c ≤ '9'

/-- The word-character class of Python `re` (class `\w`): letters,
digits and underscore; the word-boundary assertion `\b` holds between a
word character and a non-word character. -/
def isWordChar (c : Char) : Bool :=
  c.isAlpha || isDigitChar c || c = '_'

/-- The whitespace characters removed by Python's `str.strip()`. -/
def isSpaceChar (c : Char) : Bool :=
  c = ' ' || c = '\t' || c = '\n' || c = '\r' || c = '\x0b' || c = '\x0c'

/-- Fuel-indexed scanner for `re.sub` with pattern backslash-b, one or
more digits, backslash-b, and empty replacement: a maximal digit run is
erased exactly when the character before it (if any) and the character
after it (if any) are not word characters; all other characters are
kept.  `prevW` records whether the previously scanned character of the
original string is a word character (`false` at the start of the
string).  The fuel argument only makes the recursion structural; it is
instantiated with the length of the list. -/
def subAux : Nat → Bool → List Char → List Char
  | _, _, [] => []
  | 0, _, l => l
  | fuel + 1, prevW, c :: rest =>
      if isDigitChar c && !prevW then
        match rest.dropWhile isDigitChar with
        | [] => []
        | d :: r =>
            if isWordChar d then
              (c :: rest.takeWhile isDigitChar) ++ subAux fuel true (d :: r)
            else
              subAux fuel true (d :: r)
      else
        c :: subAux fuel (isWordChar c) rest

/-- `re.sub` of the pattern backslash-b, one or more digits, backslash-b
with the empty replacement, on a string given as a character list. -/
def subDigitRuns (prevW : Bool) (l : List Char) : List Char :=
  subAux l.length prevW l

/-- Fuel-indexed checker returning `true` exactly when the string holds
no match of the pattern backslash-b, one or more digits, backslash-b:
it scans like `subAux` and reports `false` on the first maximal digit
run with no adjacent word character. -/
def noStandaloneAux : Nat → Bool → List Char → Bool
  | _, _, [] => true
  | 0, _, _ => true
  | fuel + 1, prevW, c :: rest =>
      if isDigitChar c && !prevW then
        match rest.dropWhile isDigitChar with
        | [] => false
        | d :: r => if isWordChar d then noStandaloneAux fuel true (d :: r) else false
      else
        noStandaloneAux fuel (isWordChar c) rest

/-- The string holds no standalone digit run: no match of the pattern
backslash-b, one or more digits, backslash-b. -/
def noStandalone (prevW : Bool) (l : List Char) : Bool :=
  noStandaloneAux l.length prevW l

/-- Python's `str.strip()`: remove leading and trailing whitespace. -/
def pyStrip (l : List Char) : List Char :=
  ((l.dropWhile isSpaceChar).reverse.dropWhile isSpaceChar).reverse

/-- The truthiness filter `if el` of the comprehension in
`query_as_list`: a database `NULL` (here `none`) and an empty string are
falsy and dropped; every other string is kept. -/
def keepTruthy : Option (List Char) → Option (List Char)
  | none => none
  | some s => if s = [] then none else some s

/-- The first comprehension of `query_as_list`: flatten the list of row
tuples produced by `ast.literal_eval` and drop falsy elements. -/
def flattenTruthy (rows : List (List (Option (List Char)))) : List (List Char) :=
  (rows.flatMap id).filterMap keepTruthy

/-- The second comprehension of `query_as_list`, applied to one element:
erase standalone digit runs, then strip whitespace. -/
def cleanString (s : List Char) : List Char :=
  pyStrip (subDigitRuns false s)

/-- The pure part of `query_as_list` after `ast.literal_eval`: both
comprehensions in source order (falsy filter first, then the regular
expression substitution and strip). -/
def processRows (rows : List (List (Option (List Char)))) : List (List Char) :=
  (flattenTruthy rows).map cleanString

/-- The notebook's `query_as_list(db, query)` with the two fallible
calls `db.run` and `ast.literal_eval` as oracle parameters returning
`Except`: the body performs the calls in order and applies no local
error handling, so a failure of either call is the function's result. -/
def query_as_list (dbRun : String → Except String String)
    (literal_eval : String → Except String (List (List (Option (List Char)))))
    (query : String) : Except String (List (List Char)) := do
  let res ← dbRun query
  let rows ← literal_eval res
  pure (processRows rows)

/-- The concatenation building `proper_nouns` in the notebook:
`query_as_list` over the Artist name, Album title and Genre name
queries, appended with `+=` in that order.  The three arguments are the
parsed row lists the three `db.run` calls produce. -/
def proper_nouns_of (artistRows albumRows genreRows : List (List (Option (List Char)))) :
    List (List Char) :=
  processRows artistRows ++ processRows albumRows ++ processRows genreRows

/-- One observable event of the notebook's pipeline, with the data each
step consumes and produces. -/
inductive PipelineEvent where
  | tableSelection (tables : List String)
  | queryGeneration (table_names_to_use : List String) (query : String)
  | execution (query : String) (result : String)
deriving DecidableEq

/-- The notebook's `table_chain`: the category-selection model call
(an oracle from the question to a list of `Table` values) piped into
`get_tables`.  Returns the event it contributes together with its
value. -/
def table_chain (categoryOracle : String → List Table) (question : String) :
    List PipelineEvent × List String :=
  let tables := get_tables (categoryOracle question)
  ([PipelineEvent.tableSelection tables], tables)

/-- The notebook's `query_chain` built by `create_sql_query_chain`,
viewed as an oracle from the question and the bound
`table_names_to_use` to the generated SQL string, instrumented with the
event it contributes. -/
def query_chain_step (queryOracle : String → List String → String)
    (question : String) (tables : List String) : List PipelineEvent × String :=
  let q := queryOracle question tables
  ([PipelineEvent.queryGeneration tables q], q)

/-- The `db.run(query)` call executing the generated SQL, with the
database as an oracle, instrumented with the event it contributes. -/
def db_run_step (dbExec : String → String) (query : String) :
    List PipelineEvent × String :=
  ([PipelineEvent.execution query (dbExec query)], dbExec query)

/-- The notebook's `full_chain` followed by `db.run(query)`:
`RunnablePassthrough.assign(table_names_to_use=table_chain) | query_chain`
runs `table_chain` to completion, binds its result as
`table_names_to_use`, runs `query_chain` on it, and the produced query
string is then executed.  The event trace records the order in which
the steps run. -/
def full_chain (categoryOracle : String → List Table)
    (queryOracle : String → List String → String)
    (dbExec : String → String) (question : String) :
    List PipelineEvent × String :=
  let step1 := table_chain categoryOracle question
  let step2 := query_chain_step queryOracle question step1.2
  let step3 := db_run_step dbExec step2.2
  (step1.1 ++ step2.1 ++ step3.1, step3.2)

/-- Modelled from the spec: `create_sql_query_chain` is library code not
under `src/`; per the spec the query-construction step formats a prompt
template with schema and retrieved values, sends it to a hosted
language model, and returns the raw text response as a SQL string, with
no validation, sanitization, or rewriting applied locally. -/
def create_sql_query_chain (llm : String → String)
    (formatPrompt : String → String → String)
    (question : String) (proper_nouns : String) : String :=
  llm (formatPrompt question proper_nouns)

/-- The notebook's retrieval-augmented `chain`:
`RunnablePassthrough.assign(proper_nouns=retriever_chain) | query_chain`,
where `retriever_chain` maps the question to the proper-noun string.
The chain computes the proper nouns from the question and hands both to
the query chain; its output is the query chain's output unchanged. -/
def chain_with_retrieval (llm : String → String)
    (formatPrompt : String → String → String)
    (retrieve_nouns : String → String) (question : String) : String :=
  create_sql_query_chain llm formatPrompt question (retrieve_nouns question)

/-- The `k` value the notebook passes in
`vector_db.as_retriever(search_kwargs=...)`. -/
def search_k : Nat := 15

/-- Modelled from the spec: the FAISS vector store's nearest-neighbor
search is library code; per the spec it ranks the indexed values by
similarity to the question, and the retriever returns the top `k` of
that ranking. -/
def as_retriever (nearestRanked : String → List String) (k : Nat)
    (question : String) : List String :=
  (nearestRanked question).take k

/-- The notebook's `retriever`: `as_retriever` with `k` set to 15. -/
def retriever (nearestRanked : String → List String) (question : String) :
    List String :=
  as_retriever nearestRanked search_k question

/-- The per-category table list as claim C8 describes it: the seven
music tables for a category named `Music`, the four business tables for
a category named `Business`, and nothing for any other name. -/
def categoryTables (c : Table) : List String :=
  if c.name = "Music" then musicTables
  else if c.name = "Business" then businessTables
  else []

/-- C1 counterexample: the claim says no locally defined function has
fixed input-output behaviour, but `get_tables` is locally defined in
the notebook and its output on the input list `[Table.mk "Music"]` is
the fixed list of the seven music tables on every evaluation. -/
theorem get_tables_music_deterministic :
    get_tables [⟨"Music"⟩] =
      ["Album", "Artist", "Genre", "MediaType", "Playlist", "PlaylistTrack", "Track"] := by
  decide

/-- C1 amended: the pipeline steps are calls into external libraries or
a nondeterministic language model, but the notebook does define
deterministic local logic: `get_tables` and the post-processing of
`query_as_list` are locally defined functions with fixed input-output
behaviour, witnessed by fixed outputs on concrete inputs. -/
theorem local_deterministic_logic_exists :
    get_tables [⟨"Music"⟩, ⟨"Business"⟩] =
      ["Album", "Artist", "Genre", "MediaType", "Playlist", "PlaylistTrack", "Track",
       "Customer", "Employee", "Invoice", "InvoiceLine"] ∧
    processRows [[some ('A' :: 'C' :: '/' :: 'D' :: 'C' :: []), some ('1' :: '2' :: [])]] =
      [('A' :: 'C' :: '/' :: 'D' :: 'C' :: []), []] := by
  constructor
  · decide
  · decide

/-- C2: every string returned by `get_tables`, on any input list of
categories, is one of the database's eleven usable table names. -/
theorem get_tables_subset_usable (categories : List Table) (t : String)
    (h : t ∈ get_tables categories) : t ∈ get_usable_table_names := by
  induction categories with
  | nil => simp [get_tables] at h
  | cons c cs ih =>
      rw [get_tables, List.mem_append] at h
      rcases h with h | h
      · have hm : ∀ x ∈ musicTables, x ∈ get_usable_table_names := by decide
        have hb : ∀ x ∈ businessTables, x ∈ get_usable_table_names := by decide
        split at h
        · exact hm t h
        · split at h
          · exact hb t h
          · simp at h
      · exact ih h

/-- Witness for C2 at a concrete input. -/
theorem get_tables_subset_usable_witness :
    "Track" ∈ get_tables [Table.mk "Music"] ∧ "Track" ∈ get_usable_table_names :=
  ⟨by decide, get_tables_subset_usable [Table.mk "Music"] "Track" (by decide)⟩

/-- C8: `get_tables` is exactly the concatenation, in input order, of
the per-category lists: seven music tables for `Music`, four business
tables for `Business`, nothing for any other name; it is total, returns
`[]` on `[]`, and repeated categories contribute repeated names. -/
theorem get_tables_category_concatenation :
    (∀ categories, get_tables categories = (categories.map categoryTables).flatten) ∧
    get_tables [] = [] ∧
    categoryTables ⟨"Music"⟩ =
      ["Album", "Artist", "Genre", "MediaType", "Playlist", "PlaylistTrack", "Track"] ∧
    categoryTables ⟨"Business"⟩ = ["Customer", "Employee", "Invoice", "InvoiceLine"] ∧
    (∀ c, c.name ≠ "Music" → c.name ≠ "Business" → categoryTables c = []) ∧
    (∀ c cs, get_tables (c :: c :: cs) =
      categoryTables c ++ (categoryTables c ++ get_tables cs)) := by
  refine ⟨?_, rfl, by decide, by decide, ?_, ?_⟩
  · intro categories
    induction categories with
    | nil => rfl
    | cons c cs ih => rw [get_tables, List.map_cons, List.flatten_cons, ih]; rfl
  · intro c h1 h2
    simp [categoryTables, h1, h2]
  · intro c cs
    rw [get_tables, get_tables]
    rfl

/-- Witness for C8 at a concrete input. -/
theorem get_tables_category_concatenation_witness :
    categoryTables ⟨"Playlist"⟩ = [] :=
  get_tables_category_concatenation.2.2.2.2.1 ⟨"Playlist"⟩ (by decide) (by decide)

/-- C4: `query_as_list` implements no local error handling: when
`db.run` fails, the failure is returned unchanged; when
`ast.literal_eval` fails on the result string, that failure is returned
unchanged; and when both succeed the function returns the processed
rows — each call either succeeds or the error propagates, with no
recovery branch. -/
theorem query_as_list_error_propagation :
    (∀ dbRun literal_eval query e, dbRun query = Except.error e →
        query_as_list dbRun literal_eval query = Except.error e) ∧
    (∀ dbRun literal_eval query res e, dbRun query = Except.ok res →
        literal_eval res = Except.error e →
        query_as_list dbRun literal_eval query = Except.error e) ∧
    (∀ dbRun literal_eval query res rows, dbRun query = Except.ok res →
        literal_eval res = Except.ok rows →
        query_as_list dbRun literal_eval query = Except.ok (processRows rows)) := by
  refine ⟨?_, ?_, ?_⟩
  · intro dbRun literal_eval query e h
    simp [query_as_list, h, Bind.bind, Except.bind]
  · intro dbRun literal_eval query res e h1 h2
    simp [query_as_list, h1, h2, Bind.bind, Except.bind, Functor.map, Except.map]
  · intro dbRun literal_eval query res rows h1 h2
    simp [query_as_list, h1, h2, Bind.bind, Except.bind, Functor.map, Except.map,
      Pure.pure, Except.pure]

/-- Witness for C4 at concrete oracles: a failing `db.run` propagates
its error unchanged. -/
theorem query_as_list_error_propagation_witness :
    query_as_list (fun _ => Except.error "no such table")
      (fun _ => Except.ok []) "SELECT Name FROM Artist" =
      Except.error "no such table" :=
  query_as_list_error_propagation.1 (fun _ => Except.error "no such table")
    (fun _ => Except.ok []) "SELECT Name FROM Artist" "no such table" rfl

/-- C5: the chain's output is exactly the language-model oracle's raw
text response on the formatted prompt: no local validation,
sanitization or rewriting is applied, and for every response string the
oracle produces, the chain returns that string. -/
theorem chain_returns_raw_llm_response :
    (∀ llm formatPrompt retrieve_nouns question,
        chain_with_retrieval llm formatPrompt retrieve_nouns question =
          llm (formatPrompt question (retrieve_nouns question))) ∧
    (∀ response formatPrompt retrieve_nouns question,
        chain_with_retrieval (fun _ => response) formatPrompt retrieve_nouns question =
          response) := by
  exact ⟨fun _ _ _ _ => rfl, fun _ _ _ _ => rfl⟩

/-- C6: the pipeline is a fixed linear sequence: the event trace of
`full_chain` followed by `db.run` is always table selection, then query
generation, then execution; the `table_names_to_use` bound for query
generation are exactly the tables that table selection produced, and
the executed query is exactly the string query generation produced. -/
theorem full_chain_linear_order (categoryOracle : String → List Table)
    (queryOracle : String → List String → String)
    (dbExec : String → String) (question : String) :
    ∃ tables query result,
      (full_chain categoryOracle queryOracle dbExec question).1 =
        [PipelineEvent.tableSelection tables,
         PipelineEvent.queryGeneration tables query,
         PipelineEvent.execution query result] ∧
      tables = get_tables (categoryOracle question) ∧
      query = queryOracle question tables ∧
      result = dbExec query := by
  exact ⟨_, _, _, rfl, rfl, rfl, rfl⟩

/-- C7: the retriever returns the top-`k` entries of the
nearest-neighbor ranking with `k` set to 15, so at most 15 proper nouns
are ever handed on to the prompt. -/
theorem retriever_top_k_le_15 :
    (∀ nearestRanked question,
        retriever nearestRanked question = (nearestRanked question).take 15) ∧
    (∀ nearestRanked question, (retriever nearestRanked question).length ≤ 15) ∧
    (∀ nearestRanked question,
        (retriever nearestRanked question).Sublist (nearestRanked question)) := by
  refine ⟨fun _ _ => rfl, fun n q => ?_, fun n q => ?_⟩
  · exact List.length_take_le 15 (n q)
  · exact List.take_sublist 15 (n q)

/-- C3 counterexample: the Chinook database holds the value
`Audioslave` both as an Artist name and as an Album title, and the
notebook applies no deduplication, so the concatenated `proper_nouns`
list holds duplicate strings. -/
theorem proper_nouns_duplicate_counterexample :
    ¬ (proper_nouns_of
        [[some ('A' :: 'u' :: 'd' :: 'i' :: 'o' :: 's' :: 'l' :: 'a' :: 'v' :: 'e' :: [])]]
        [[some ('A' :: 'u' :: 'd' :: 'i' :: 'o' :: 's' :: 'l' :: 'a' :: 'v' :: 'e' :: [])]]
        []).Nodup := by
  decide

/-- C3 amended: the `proper_nouns` list is the plain concatenation of
the three query results with no deduplication: every string occurs in
it exactly as often as in the three processed results combined, so a
value returned by more than one query (or more than once) reaches the
vector store multiple times. -/
theorem proper_nouns_concatenation_counts
    (artistRows albumRows genreRows : List (List (Option (List Char))))
    (x : List Char) :
    (proper_nouns_of artistRows albumRows genreRows).count x =
      (processRows artistRows).count x + (processRows albumRows).count x +
        (processRows genreRows).count x := by
  simp [proper_nouns_of, List.count_append]
  omega

/-- The output string touches no whitespace at either end: its first
and last characters, when they exist, are not `strip`-removable. -/
def noEdgeSpace (l : List Char) : Bool :=
  (match l.head? with
   | none => true
   | some c => !isSpaceChar c) &&
  (match l.getLast? with
   | none => true
   | some c => !isSpaceChar c)

theorem length_dropWhile_le (p : Char → Bool) (l : List Char) :
    (l.dropWhile p).length ≤ l.length := by
  induction l with
  | nil => simp [List.dropWhile]
  | cons a l ih =>
      rw [List.dropWhile_cons]
      split
      · exact Nat.le_succ_of_le ih
      · exact Nat.le_refl _

theorem dropWhile_head_false (p : Char → Bool) (l : List Char) (d : Char) (r : List Char)
    (h : l.dropWhile p = d :: r) : p d = false := by
  induction l with
  | nil => simp [List.dropWhile] at h
  | cons a l ih =>
      rw [List.dropWhile_cons] at h
      split at h
      · exact ih h
      · next hp =>
          cases h
          exact Bool.eq_false_iff.mpr hp

theorem dropWhile_append_all (p : Char → Bool) (l₁ l₂ : List Char)
    (h : ∀ x ∈ l₁, p x = true) : (l₁ ++ l₂).dropWhile p = l₂.dropWhile p := by
  induction l₁ with
  | nil => rfl
  | cons a l ih =>
      rw [List.cons_append, List.dropWhile_cons, if_pos (h a (by simp))]
      exact ih fun x hx => h x (by simp [hx])

theorem subAux_fuel (n : Nat) : ∀ (m : Nat) (b : Bool) (l : List Char),
    l.length ≤ n → l.length ≤ m → subAux n b l = subAux m b l := by
  induction n with
  | zero =>
      intro m b l hn _
      have : l = [] := List.eq_nil_of_length_eq_zero (Nat.le_zero.mp hn)
      subst this
      cases m <;> rfl
  | succ n ih =>
      intro m b l hn hm
      cases l with
      | nil => cases m <;> rfl
      | cons c rest =>
          cases m with
          | zero => simp at hm
          | succ m =>
              simp only [List.length_cons, Nat.succ_le_succ_iff] at hn hm
              simp only [subAux]
              by_cases hc : (isDigitChar c && !b) = true
              · rw [if_pos hc, if_pos hc]
                cases hd : rest.dropWhile isDigitChar with
                | nil => rfl
                | cons d r =>
                    dsimp only
                    have hlen : (d :: r).length ≤ rest.length :=
                      hd ▸ length_dropWhile_le isDigitChar rest
                    by_cases hw : isWordChar d = true
                    · rw [if_pos hw, if_pos hw,
                        ih m true (d :: r) (Nat.le_trans hlen hn) (Nat.le_trans hlen hm)]
                    · rw [if_neg hw, if_neg hw,
                        ih m true (d :: r) (Nat.le_trans hlen hn) (Nat.le_trans hlen hm)]
              · rw [if_neg hc, if_neg hc, ih m (isWordChar c) rest hn hm]

theorem noStandaloneAux_fuel (n : Nat) : ∀ (m : Nat) (b : Bool) (l : List Char),
    l.length ≤ n → l.length ≤ m → noStandaloneAux n b l = noStandaloneAux m b l := by
  induction n with
  | zero =>
      intro m b l hn _
      have : l = [] := List.eq_nil_of_length_eq_zero (Nat.le_zero.mp hn)
      subst this
      cases m <;> rfl
  | succ n ih =>
      intro m b l hn hm
      cases l with
      | nil => cases m <;> rfl
      | cons c rest =>
          cases m with
          | zero => simp at hm
          | succ m =>
              simp only [List.length_cons, Nat.succ_le_succ_iff] at hn hm
              simp only [noStandaloneAux]
              by_cases hc : (isDigitChar c && !b) = true
              · rw [if_pos hc, if_pos hc]
                cases hd : rest.dropWhile isDigitChar with
                | nil => rfl
                | cons d r =>
                    dsimp only
                    have hlen : (d :: r).length ≤ rest.length :=
                      hd ▸ length_dropWhile_le isDigitChar rest
                    by_cases hw : isWordChar d = true
                    · rw [if_pos hw, if_pos hw,
                        ih m true (d :: r) (Nat.le_trans hlen hn) (Nat.le_trans hlen hm)]
                    · rw [if_neg hw, if_neg hw]
              · rw [if_neg hc, if_neg hc, ih m (isWordChar c) rest hn hm]

theorem subDigitRuns_nil (b : Bool) : subDigitRuns b [] = [] := rfl

theorem subDigitRuns_keep (b : Bool) (c : Char) (rest : List Char)
    (h : (isDigitChar c && !b) = false) :
    subDigitRuns b (c :: rest) = c :: subDigitRuns (isWordChar c) rest := by
  unfold subDigitRuns
  simp only [List.length_cons, subAux]
  rw [if_neg (by simp [h])]

theorem subDigitRuns_erase_end (c : Char) (rest : List Char)
    (hc : isDigitChar c = true) (hd : rest.dropWhile isDigitChar = []) :
    subDigitRuns false (c :: rest) = [] := by
  unfold subDigitRuns
  simp only [List.length_cons, subAux]
  rw [if_pos (by simp [hc]), hd]

theorem subDigitRuns_digit_keep (c d : Char) (rest r : List Char)
    (hc : isDigitChar c = true) (hd : rest.dropWhile isDigitChar = d :: r)
    (hw : isWordChar d = true) :
    subDigitRuns false (c :: rest) =
      (c :: rest.takeWhile isDigitChar) ++ subDigitRuns true (d :: r) := by
  unfold subDigitRuns
  simp only [List.length_cons, subAux]
  rw [if_pos (by simp [hc]), hd]
  dsimp only
  rw [if_pos hw,
    subAux_fuel rest.length (d :: r).length true (d :: r)
      (hd ▸ length_dropWhile_le isDigitChar rest) (Nat.le_refl _)]
  simp only [List.length_cons, subAux]

theorem subDigitRuns_digit_erase (c d : Char) (rest r : List Char)
    (hc : isDigitChar c = true) (hd : rest.dropWhile isDigitChar = d :: r)
    (hw : isWordChar d = false) :
    subDigitRuns false (c :: rest) = subDigitRuns true (d :: r) := by
  unfold subDigitRuns
  simp only [List.length_cons, subAux]
  rw [if_pos (by simp [hc]), hd]
  dsimp only
  rw [if_neg (by simp [hw]),
    subAux_fuel rest.length (d :: r).length true (d :: r)
      (hd ▸ length_dropWhile_le isDigitChar rest) (Nat.le_refl _)]
  simp only [List.length_cons, subAux]

theorem noStandalone_nil (b : Bool) : noStandalone b [] = true := rfl

theorem noStandalone_keep (b : Bool) (c : Char) (rest : List Char)
    (h : (isDigitChar c && !b) = false) :
    noStandalone b (c :: rest) = noStandalone (isWordChar c) rest := by
  unfold noStandalone
  simp only [List.length_cons, noStandaloneAux]
  rw [if_neg (by simp [h])]

theorem noStandalone_digit_end (c : Char) (rest : List Char)
    (hc : isDigitChar c = true) (hd : rest.dropWhile isDigitChar = []) :
    noStandalone false (c :: rest) = false := by
  unfold noStandalone
  simp only [List.length_cons, noStandaloneAux]
  rw [if_pos (by simp [hc]), hd]

theorem noStandalone_digit_keep (c d : Char) (rest r : List Char)
    (hc : isDigitChar c = true) (hd : rest.dropWhile isDigitChar = d :: r)
    (hw : isWordChar d = true) :
    noStandalone false (c :: rest) = noStandalone true (d :: r) := by
  unfold noStandalone
  simp only [List.length_cons, noStandaloneAux]
  rw [if_pos (by simp [hc]), hd]
  dsimp only
  rw [if_pos hw,
    noStandaloneAux_fuel rest.length (d :: r).length true (d :: r)
      (hd ▸ length_dropWhile_le isDigitChar rest) (Nat.le_refl _)]
  simp only [List.length_cons, noStandaloneAux]

theorem noStandalone_digit_not_word (c d : Char) (rest r : List Char)
    (hc : isDigitChar c = true) (hd : rest.dropWhile isDigitChar = d :: r)
    (hw : isWordChar d = false) :
    noStandalone false (c :: rest) = false := by
  unfold noStandalone
  simp only [List.length_cons, noStandaloneAux]
  rw [if_pos (by simp [hc]), hd]
  dsimp only
  rw [if_neg (by simp [hw])]

theorem noStandalone_subDigitRuns_aux (n : Nat) : ∀ (l : List Char) (b : Bool),
    l.length ≤ n → noStandalone b (subDigitRuns b l) = true := by
  induction n with
  | zero =>
      intro l b h
      have : l = [] := List.eq_nil_of_length_eq_zero (Nat.le_zero.mp h)
      subst this
      rfl
  | succ n ih =>
      intro l b hl
      cases l with
      | nil => rfl
      | cons c rest =>
          simp only [List.length_cons, Nat.succ_le_succ_iff] at hl
          by_cases hcd : (isDigitChar c && !b) = true
          · have hb : b = false := by
              revert hcd; cases b <;> simp
            have hc : isDigitChar c = true := by
              revert hcd; cases hdig : isDigitChar c <;> simp
            subst hb
            cases hd : rest.dropWhile isDigitChar with
            | nil =>
                rw [subDigitRuns_erase_end c rest hc hd]
                rfl
            | cons d r =>
                have hdd : isDigitChar d = false := dropWhile_head_false _ _ _ _ hd
                have hrlen : (d :: r).length ≤ rest.length :=
                  hd ▸ length_dropWhile_le isDigitChar rest
                have hrlen2 : r.length ≤ n := by
                  simp only [List.length_cons] at hrlen
                  omega
                by_cases hw : isWordChar d = true
                · rw [subDigitRuns_digit_keep c d rest r hc hd hw]
                  have hX : subDigitRuns true (d :: r) = d :: subDigitRuns true r := by
                    rw [subDigitRuns_keep true d r (by simp [hdd])] ; rw [hw]
                  rw [hX]
                  have htw : ∀ x ∈ rest.takeWhile isDigitChar, isDigitChar x = true :=
                    fun x hx => List.mem_takeWhile_imp hx
                  have hdw : (rest.takeWhile isDigitChar ++ d :: subDigitRuns true r).dropWhile
                      isDigitChar = d :: subDigitRuns true r := by
                    rw [dropWhile_append_all isDigitChar _ _ htw, List.dropWhile_cons,
                      if_neg (by simp [hdd])]
                  rw [show (c :: rest.takeWhile isDigitChar) ++ (d :: subDigitRuns true r) =
                    c :: (rest.takeWhile isDigitChar ++ d :: subDigitRuns true r) from rfl]
                  rw [noStandalone_digit_keep c d _ (subDigitRuns true r) hc hdw hw]
                  rw [noStandalone_keep true d (subDigitRuns true r) (by simp [hdd]), hw]
                  exact ih r true hrlen2
                · have hw' : isWordChar d = false := by
                    revert hw; cases isWordChar d <;> simp
                  rw [subDigitRuns_digit_erase c d rest r hc hd hw']
                  rw [subDigitRuns_keep true d r (by simp [hdd]), hw']
                  rw [noStandalone_keep false d (subDigitRuns false r) (by simp [hdd]), hw']
                  exact ih r false hrlen2
          · have hcd' : (isDigitChar c && !b) = false := by
              revert hcd; cases isDigitChar c && !b <;> simp
            rw [subDigitRuns_keep b c rest hcd',
              noStandalone_keep b c (subDigitRuns (isWordChar c) rest) hcd']
            exact ih rest (isWordChar c) hl

/-- The substitution is complete: its output holds no remaining
standalone digit run. -/
theorem noStandalone_subDigitRuns (l : List Char) (b : Bool) :
    noStandalone b (subDigitRuns b l) = true :=
  noStandalone_subDigitRuns_aux l.length l b (Nat.le_refl _)

theorem isSpaceChar_not_digit (c : Char) (h : isSpaceChar c = true) :
    isDigitChar c = false := by
  simp only [isSpaceChar, Bool.or_eq_true, decide_eq_true_eq] at h
  rcases h with ((((h | h) | h) | h) | h) | h <;> subst h <;> decide

theorem isSpaceChar_not_word (c : Char) (h : isSpaceChar c = true) :
    isWordChar c = false := by
  simp only [isSpaceChar, Bool.or_eq_true, decide_eq_true_eq] at h
  rcases h with ((((h | h) | h) | h) | h) | h <;> subst h <;> decide

theorem noStandalone_all_space (ws : List Char)
    (hws : ∀ c ∈ ws, isSpaceChar c = true) (b : Bool) :
    noStandalone b ws = true := by
  induction ws generalizing b with
  | nil => rfl
  | cons w ws' ih =>
      have hw : isSpaceChar w = true := hws w (by simp)
      rw [noStandalone_keep b w ws' (by simp [isSpaceChar_not_digit w hw])]
      exact ih (fun c hc => hws c (by simp [hc])) _

theorem noStandalone_append_space_aux (ws : List Char)
    (hws : ∀ c ∈ ws, isSpaceChar c = true) (n : Nat) :
    ∀ (u : List Char) (b : Bool), u.length ≤ n →
      noStandalone b (u ++ ws) = noStandalone b u := by
  induction n with
  | zero =>
      intro u b h
      have : u = [] := List.eq_nil_of_length_eq_zero (Nat.le_zero.mp h)
      subst this
      rw [List.nil_append, noStandalone_all_space ws hws b]
      rfl
  | succ n ih =>
      intro u b hu
      cases u with
      | nil =>
          rw [List.nil_append, noStandalone_all_space ws hws b]
          rfl
      | cons c tail =>
          simp only [List.length_cons, Nat.succ_le_succ_iff] at hu
          by_cases hcd : (isDigitChar c && !b) = true
          · have hb : b = false := by revert hcd; cases b <;> simp
            have hc : isDigitChar c = true := by
              revert hcd; cases hdig : isDigitChar c <;> simp
            subst hb
            cases ht : tail.dropWhile isDigitChar with
            | nil =>
                have htail : ∀ x ∈ tail, isDigitChar x = true :=
                  List.dropWhile_eq_nil_iff.mp ht
                have h1 : (tail ++ ws).dropWhile isDigitChar = ws.dropWhile isDigitChar :=
                  dropWhile_append_all isDigitChar tail ws htail
                cases ws with
                | nil => rw [List.append_nil]
                | cons w ws' =>
                    have hwsp : isSpaceChar w = true := hws w (by simp)
                    have h2 : (tail ++ w :: ws').dropWhile isDigitChar = w :: ws' := by
                      rw [h1, List.dropWhile_cons,
                        if_neg (by simp [isSpaceChar_not_digit w hwsp])]
                    rw [List.cons_append,
                      noStandalone_digit_not_word c w (tail ++ w :: ws') ws' hc h2
                        (isSpaceChar_not_word w hwsp),
                      noStandalone_digit_end c tail hc ht]
            | cons d r =>
                have hdd : isDigitChar d = false := dropWhile_head_false _ _ _ _ ht
                have h1 : (tail ++ ws).dropWhile isDigitChar = d :: (r ++ ws) := by
                  have h0 : tail ++ ws = tail.takeWhile isDigitChar ++ (d :: (r ++ ws)) := by
                    conv_lhs => rw [← List.takeWhile_append_dropWhile isDigitChar tail]
                    rw [ht, List.append_assoc]
                    rfl
                  rw [h0,
                    dropWhile_append_all isDigitChar _ _
                      (fun x hx => List.mem_takeWhile_imp hx),
                    List.dropWhile_cons, if_neg (by simp [hdd])]
                have hlen : (d :: r).length ≤ n := by
                  have := ht ▸ length_dropWhile_le isDigitChar tail
                  omega
                by_cases hww : isWordChar d = true
                · rw [List.cons_append,
                    noStandalone_digit_keep c d (tail ++ ws) (r ++ ws) hc h1 hww,
                    noStandalone_digit_keep c d tail r hc ht hww]
                  exact ih (d :: r) true hlen
                · have hww' : isWordChar d = false := by
                    revert hww; cases isWordChar d <;> simp
                  rw [List.cons_append,
                    noStandalone_digit_not_word c d (tail ++ ws) (r ++ ws) hc h1 hww',
                    noStandalone_digit_not_word c d tail r hc ht hww']
          · have hcd' : (isDigitChar c && !b) = false := by
              revert hcd; cases isDigitChar c && !b <;> simp
            rw [List.cons_append, noStandalone_keep b c (tail ++ ws) hcd',
              noStandalone_keep b c tail hcd']
            exact ih tail (isWordChar c) hu

/-- Appending trailing whitespace does not change whether a string
holds a standalone digit run. -/
theorem noStandalone_append_space (u ws : List Char)
    (hws : ∀ c ∈ ws, isSpaceChar c = true) (b : Bool) :
    noStandalone b (u ++ ws) = noStandalone b u :=
  noStandalone_append_space_aux ws hws u.length u b (Nat.le_refl _)

/-- Dropping leading whitespace does not change whether a string holds
a standalone digit run. -/
theorem noStandalone_dropWhile_space (l : List Char) :
    noStandalone false (l.dropWhile isSpaceChar) = noStandalone false l := by
  induction l with
  | nil => rfl
  | cons c rest ih =>
      rw [List.dropWhile_cons]
      split
      · next hsp =>
          rw [ih, noStandalone_keep false c rest (by simp [isSpaceChar_not_digit c hsp]),
            isSpaceChar_not_word c hsp]
      · rfl

/-- Stripping whitespace at both ends does not change whether a string
holds a standalone digit run. -/
theorem noStandalone_pyStrip (l : List Char) :
    noStandalone false (pyStrip l) = noStandalone false l := by
  rw [← noStandalone_dropWhile_space l]
  unfold pyStrip
  have hm : l.dropWhile isSpaceChar =
      ((l.dropWhile isSpaceChar).reverse.dropWhile isSpaceChar).reverse ++
        ((l.dropWhile isSpaceChar).reverse.takeWhile isSpaceChar).reverse := by
    conv_lhs =>
      rw [← List.reverse_reverse (l.dropWhile isSpaceChar),
        ← List.takeWhile_append_dropWhile isSpaceChar (l.dropWhile isSpaceChar).reverse]
    rw [List.reverse_append]
  conv_rhs => rw [hm]
  exact (noStandalone_append_space _ _
    (fun c hc => List.mem_takeWhile_imp (List.mem_reverse.mp hc)) false).symm

/-- Stripping leaves no whitespace at either end of the string. -/
theorem pyStrip_noEdgeSpace (l : List Char) : noEdgeSpace (pyStrip l) = true := by
  cases hX : (l.dropWhile isSpaceChar).reverse.dropWhile isSpaceChar with
  | nil =>
      have hs : pyStrip l = [] := by unfold pyStrip; rw [hX]; rfl
      rw [hs]
      rfl
  | cons d r =>
      have hd : isSpaceChar d = false := dropWhile_head_false _ _ _ _ hX
      have hlast : (pyStrip l).getLast? = some d := by
        unfold pyStrip
        rw [List.getLast?_reverse, hX]
        rfl
      have hmne : l.dropWhile isSpaceChar ≠ [] := by
        intro h0
        rw [h0] at hX
        simp [List.dropWhile] at hX
      cases hm : l.dropWhile isSpaceChar with
      | nil => exact absurd hm hmne
      | cons a m' =>
          have ha : isSpaceChar a = false := dropWhile_head_false _ _ _ _ hm
          have hhead : (pyStrip l).head? = some a := by
            unfold pyStrip
            rw [List.head?_reverse]
            have hsplit : (l.dropWhile isSpaceChar).reverse =
                (l.dropWhile isSpaceChar).reverse.takeWhile isSpaceChar ++ (d :: r) := by
              rw [← hX, List.takeWhile_append_dropWhile]
            have h3 : ((l.dropWhile isSpaceChar).reverse).getLast? = (d :: r).getLast? := by
              conv_lhs => rw [hsplit]
              exact List.getLast?_append_of_ne_nil _ (by simp)
            rw [hX, ← h3, List.getLast?_reverse, hm]
            rfl
          unfold noEdgeSpace
          rw [hhead, hlast]
          simp [ha, hd]

/-- C9: after the falsy filter, every element of `query_as_list`'s
output is the stripped digit-run-erased string, so it carries no
leading or trailing whitespace and no standalone digit run; the falsy
filter runs first, so a digits-only value (truthy before the erasure)
survives it and reaches the output as the empty string, while `NULL`
and empty-string elements are dropped. -/
theorem query_as_list_output_shape :
    (∀ rows out, out ∈ processRows rows →
        noEdgeSpace out = true ∧ noStandalone false out = true) ∧
    processRows [[some ('1' :: '2' :: '3' :: [])]] = [[]] ∧
    processRows [[none, some [], some ('B' :: 'i' :: 'g' :: [])]] =
      [('B' :: 'i' :: 'g' :: [])] := by
  refine ⟨?_, by decide, by decide⟩
  intro rows out hmem
  simp only [processRows, List.mem_map] at hmem
  obtain ⟨s, _, rfl⟩ := hmem
  unfold cleanString
  refine ⟨pyStrip_noEdgeSpace _, ?_⟩
  rw [noStandalone_pyStrip]
  exact noStandalone_subDigitRuns s false

/-- Witness for C9 at a concrete input list. -/
theorem query_as_list_output_shape_witness :
    noEdgeSpace ('B' :: 'i' :: 'g' :: []) = true ∧
    noStandalone false ('B' :: 'i' :: 'g' :: []) = true :=
  query_as_list_output_shape.1 [[some ('B' :: 'i' :: 'g' :: [])]]
    ('B' :: 'i' :: 'g' :: []) (by decide)

end SqlLargeDb
